import Mathlib

/-!
Verification of the cluster-status-updater pipeline (main.go): the JSON
flattener, the dynamic header and table assembly, the status poll loop and
the access-token exchange.  Go values decoded from JSON are modelled by the
inductive type Json below; Go maps are modelled by association lists whose
update operation removes the old binding, so key lists stay duplicate-free.
-/

/-- Model of a Go value decoded from JSON (encoding/json into interface).
Numbers decode to float64 in Go; every numeric value appearing in the
claims is integral, and Go renders an integral float64 with the verb v
as its plain decimal digits, so numbers are modelled as integers whose
rendering is toString. -/
inductive Json where
  | obj : List (String × Json) → Json
  | arr : List Json → Json
  | str : String → Json
  | num : Int → Json
  | boolean : Bool → Json
  | null : Json

/-- Model of the Go map from strings to strings built by flatten: an
association list.  Insertion removes any previous binding of the key, so
the key list of any map built by putKV has no duplicates. -/
abbrev SMap := List (String × String)

/-- Model of the Go map assignment m[k] = v. -/
def putKV (m : SMap) (k v : String) : SMap :=
  m.filter (fun p => p.1 ≠ k) ++ [(k, v)]

/-- Model of the Go merge loop: for k, v := range kvs with m[k] = v. -/
def putAll (m kvs : SMap) : SMap :=
  kvs.foldl (fun a p => putKV a p.1 p.2) m

/-- Model of the Go map lookup v, ok := m[k]. -/
def findKV (m : SMap) (k : String) : Option String :=
  (m.find? (fun p => decide (p.1 = k))).map (fun p => p.2)

/-- Key set of a modelled map, as the list of bound keys. -/
def keysOf (m : SMap) : List String :=
  m.map (fun p => p.1)

/-- New path component computation of flatten (main.go lines 143 to 146):
newPrefix is the key alone when the accumulated path is empty, and
otherwise the accumulated path, an underscore, and the key. -/
def newPfx (pfx key : String) : String :=
  if pfx = "" then key else pfx ++ "_" ++ key

mutual
/-- Model of flatten (main.go lines 137 to 172): only an object produces
entries; any other value yields the empty map. -/
def flatten : Json → String → SMap
  | .obj fields, pfx => flattenFields fields pfx
  | _, _ => []

/-- The range loop of flatten over the fields of an object: each field
contributes its entries and later fields overwrite earlier ones on key
collision, exactly as repeated Go map assignment does. -/
def flattenFields : List (String × Json) → String → SMap
  | [], _ => []
  | (key, value) :: rest, pfx =>
    putAll (flattenVal value (newPfx pfx key)) (flattenFields rest pfx)

/-- The switch on a field value inside flatten (main.go lines 147 to 168):
nested objects recurse, a non-empty array recurses into its first element
only, an empty array contributes nothing, a string is stored as is, a
number and a boolean are stored via their Go format verbs, and the default
case (only nil can reach it from decoded JSON) stores the Go rendering of
nil. -/
def flattenVal : Json → String → SMap
  | .obj f, np => flattenFields f np
  | .arr [], _ => []
  | .arr (x :: _), np => flatten x np
  | .str s, np => [(np, s)]
  | .num n, np => [(np, toString n)]
  | .boolean b, np => [(np, if b then "true" else "false")]
  | .null, np => [(np, "<nil>")]
end

/-- Model of the per-cluster loop of main (main.go lines 61 to 71): flatten
each cluster payload with empty starting path, then assign the cluster map
key under cluster_name, overwriting any flattened entry of that name. -/
def flattenClusters (clusters : List (String × Json)) : List SMap :=
  clusters.map (fun c => putKV (flatten c.2 "") "cluster_name" c.1)

/-- Model of the header assembly of main (main.go lines 58 to 77): collect
every key of every flattened record into a set and sort the result.  The
set is modelled by dedup and Go sort.Strings by insertion sort; both
produce the unique sorted duplicate-free list of the observed keys. -/
def headerOf (recs : List SMap) : List String :=
  List.insertionSort (· ≤ ·) (recs.flatMap keysOf).dedup

/-- Model of the row construction of main (main.go lines 86 to 96): one
cell per header column, the bound value when the record has the key and
the empty string otherwise. -/
def rowFor (header : List String) (r : SMap) : List String :=
  header.map (fun k => (findKV r k).getD "")

/-- Model of the table assembly of main (main.go lines 79 to 97): the
header row followed by one row per cluster record. -/
def tableOf (clusters : List (String × Json)) : List (List String) :=
  (headerOf (flattenClusters clusters)) ::
    (flattenClusters clusters).map (rowFor (headerOf (flattenClusters clusters)))

/-- Model of the decoded StatusResponse body (main.go lines 23 to 28). -/
structure StatusResponse where
  status : String
  clusters : List (String × Json)

/-- Outcome of one GET of the status endpoint, as seen by pollForStatus:
a transport error from client.Do, a JSON decode error, or a decoded
payload. -/
inductive GetOutcome where
  | transportErr
  | decodeErr
  | payload (s : StatusResponse)

/-- Outcome of the initial POST of pollForStatus: a transport error from
client.Do, or any response (the body is closed unread). -/
inductive PostOutcome where
  | transportErr
  | ok

/-- Errors pollForStatus can return (main.go lines 199 to 242). -/
inductive PollError where
  | postFailed
  | getFailed
  | decodeFailed
  | timeout
deriving DecidableEq

/-- Model of the GET loop of pollForStatus (main.go lines 215 to 239):
i is the index of the next attempt, fuel the number of loop iterations
still allowed (10 at entry).  Returns the result together with the list of
attempt indices actually performed, in the order performed. -/
def pollLoop (get : Nat → GetOutcome) : Nat → Nat → Except PollError StatusResponse × List Nat
  | _, 0 => (.error .timeout, [])
  | i, fuel + 1 =>
    match get i with
    | .transportErr => (.error .getFailed, [i])
    | .decodeErr => (.error .decodeFailed, [i])
    | .payload s =>
      if s.status = "success" then (.ok s, [i])
      else
        let r := pollLoop get (i + 1) fuel
        (r.1, i :: r.2)

/-- Model of pollForStatus (main.go lines 199 to 242): one POST, fatal on
transport error, then the GET loop with 10 attempts.  The middle component
is the number of POST requests issued and the last the list of GET attempt
indices performed. -/
def pollForStatus (post : PostOutcome) (get : Nat → GetOutcome) :
    Except PollError StatusResponse × Nat × List Nat :=
  match post with
  | .transportErr => (.error .postFailed, 1, [])
  | .ok => ((pollLoop get 0 10).1, 1, (pollLoop get 0 10).2)

/-- Outcome of the single login GET, as seen by getAccessToken: a transport
error, or a response with its HTTP status code and the result of decoding
its body into LoginResponse (none when decoding fails, otherwise the
access token field). -/
inductive LoginOutcome where
  | transportErr
  | response (code : Nat) (decoded : Option String)

/-- Errors getAccessToken can return (main.go lines 174 to 197). -/
inductive AuthError where
  | transport
  | badStatus
  | decodeFailed
deriving DecidableEq

/-- Model of getAccessToken (main.go lines 174 to 197): fail on transport
error, then on a status code other than 200, then on a decode failure,
and otherwise return the decoded access token.  The second component is
the number of HTTP requests issued: the function performs exactly one
client.Do call on every path. -/
def getAccessToken (r : LoginOutcome) : Except AuthError String × Nat :=
  match r with
  | .transportErr => (.error .transport, 1)
  | .response code decoded =>
    if code ≠ 200 then (.error .badStatus, 1)
    else
      match decoded with
      | none => (.error .decodeFailed, 1)
      | some tok => (.ok tok, 1)

/-- Splitting a character list at every underscore; the result always has
at least one group and concatenating the groups with underscores between
them restores the input. -/
def splitChars : List Char → List (List Char)
  | [] => [[]]
  | c :: cs =>
    if c = '_' then [] :: splitChars cs
    else
      match splitChars cs with
      | [] => [[c]]
      | g :: gs => (c :: g) :: gs

/-- Splitting a string on the underscore separator, as the spec re-nesting
step does to a flattened column key. -/
def splitU (s : String) : List String :=
  (splitChars s.data).map (fun cs => String.mk cs)

/-- Joining path components with underscores: the column key flatten
produces for a leaf reached through the listed keys, starting from the
empty path. -/
def joinU : List String → String
  | [] => ""
  | [a] => a
  | a :: rest => a ++ "_" ++ joinU rest

/-- Column key flatten produces for a leaf reached through path p when the
walk starts with accumulated path pfx: each component is appended through
newPfx. -/
def joinKey (pfx : String) (p : List String) : String :=
  p.foldl newPfx pfx

mutual
/-- Leaf paths and rendered leaf values of a decoded JSON value, following
the walk order of flatten: objects contribute their fields in order,
everything else contributes nothing at top level. -/
def leaves : Json → List (List String × String)
  | .obj fields => leavesFields fields
  | _ => []

/-- Leaves contributed by an object field list. -/
def leavesFields : List (String × Json) → List (List String × String)
  | [] => []
  | (key, value) :: rest => leavesVal value key ++ leavesFields rest

/-- Leaves contributed by one field value, each path extended with the
field key: nested objects recurse, a non-empty array contributes the
leaves of its first element, an empty array contributes nothing, and a
scalar is one leaf rendered exactly as flatten renders it. -/
def leavesVal : Json → String → List (List String × String)
  | .obj f, key => (leavesFields f).map (fun q => (key :: q.1, q.2))
  | .arr [], _ => []
  | .arr (x :: _), key => (leaves x).map (fun q => (key :: q.1, q.2))
  | .str s, key => [([key], s)]
  | .num n, key => [([key], toString n)]
  | .boolean b, key => [([key], if b then "true" else "false")]
  | .null, key => [([key], "<nil>")]
end

/-- A key is safe for round-tripping when it is non-empty and contains no
underscore. -/
def goodKey (k : String) : Prop :=
  k ≠ "" ∧ '_' ∉ k.data

mutual
/-- Well-formed decoded JSON value with round-trip safe keys: at every
object the keys are pairwise distinct (Go maps guarantee distinctness),
non-empty and underscore-free. -/
def Wf : Json → Prop
  | .obj fields => (fields.map (fun p => p.1)).Nodup ∧ WfFields fields
  | .arr l => WfList l
  | _ => True

/-- Well-formedness of an object field list. -/
def WfFields : List (String × Json) → Prop
  | [] => True
  | (k, v) :: rest => goodKey k ∧ Wf v ∧ WfFields rest

/-- Well-formedness of an array element list. -/
def WfList : List Json → Prop
  | [] => True
  | x :: xs => Wf x ∧ WfList xs
end

mutual
/-- Column keys reachable by flatten from a value with accumulated path
pfx: holds exactly when flatten emits an entry under k.  Only objects
reach anything. -/
def keyOf : Json → String → String → Prop
  | .obj fields, pfx, k => keyOfFields fields pfx k
  | _, _, _ => False

/-- Column keys contributed by a field list. -/
def keyOfFields : List (String × Json) → String → String → Prop
  | [], _, _ => False
  | (key, value) :: rest, pfx, k =>
    keyOfVal value (newPfx pfx key) k ∨ keyOfFields rest pfx k

/-- Column keys contributed by one field value under its new path np. -/
def keyOfVal : Json → String → String → Prop
  | .obj f, np, k => keyOfFields f np k
  | .arr [], _, _ => False
  | .arr (x :: _), np, k => keyOf x np k
  | _, np, k => k = np
end

mutual
/-- Two modelled JSON values denote the same decoded Go value: equal
scalars, element-wise equivalent arrays, and objects whose field lists
agree up to a permutation and up to equivalence of the field values.
Permuting the field list models the unspecified iteration order of Go
maps. -/
inductive JEquiv : Json → Json → Prop where
  | str (s : String) : JEquiv (.str s) (.str s)
  | num (n : Int) : JEquiv (.num n) (.num n)
  | boolean (b : Bool) : JEquiv (.boolean b) (.boolean b)
  | null : JEquiv .null .null
  | arr {l₁ l₂ : List Json} : JEquivList l₁ l₂ → JEquiv (.arr l₁) (.arr l₂)
  | obj {l₁ l₂ l₃ : List (String × Json)} : JEquivFields l₁ l₂ → l₂.Perm l₃ →
      JEquiv (.obj l₁) (.obj l₃)

/-- Element-wise equivalence of array element lists. -/
inductive JEquivList : List Json → List Json → Prop where
  | nil : JEquivList [] []
  | cons {x y : Json} {xs ys : List Json} : JEquiv x y → JEquivList xs ys →
      JEquivList (x :: xs) (y :: ys)

/-- Element-wise equivalence of field lists: same keys in the same order,
equivalent values. -/
inductive JEquivFields : List (String × Json) → List (String × Json) → Prop where
  | nil : JEquivFields [] []
  | cons (key : String) {x y : Json} {xs ys : List (String × Json)} : JEquiv x y →
      JEquivFields xs ys → JEquivFields ((key, x) :: xs) ((key, y) :: ys)
end

/-- Two cluster maps denote the same decoded Go map: same entries up to
order, with equivalent payloads. -/
def ClustersEquiv (cl₁ cl₂ : List (String × Json)) : Prop :=
  ∃ cl, JEquivFields cl₁ cl ∧ cl.Perm cl₂

/-- Header as the spec words it: the set union of the key sets of all
records, sorted lexicographically. -/
def specHeaderOf (recs : List SMap) : List String :=
  Finset.sort (· ≤ ·) ((recs.map (fun r => (keysOf r).toFinset)).foldr (· ∪ ·) ∅)

theorem putAll_nil (m : SMap) : putAll m [] = m := rfl

theorem putAll_cons (m : SMap) (k v : String) (kvs : SMap) :
    putAll m ((k, v) :: kvs) = putAll (putKV m k v) kvs := rfl

theorem findKV_cons (p : String × String) (m : SMap) (k : String) :
    findKV (p :: m) k = if p.1 = k then some p.2 else findKV m k := by
  by_cases h : p.1 = k <;> simp [findKV, List.find?_cons, h]

theorem findKV_append (m₁ m₂ : SMap) (k : String) :
    findKV (m₁ ++ m₂) k = ((findKV m₁ k).rec (findKV m₂ k) (fun v => some v)) := by
  induction m₁ with
  | nil => simp [findKV]
  | cons p m ih =>
    by_cases h : p.1 = k <;> simp [findKV_cons, h, ih]

theorem findKV_eq_none (m : SMap) (k : String) :
    findKV m k = none ↔ k ∉ keysOf m := by
  induction m with
  | nil => simp [findKV, keysOf]
  | cons p m ih =>
    by_cases h : p.1 = k
    · simp [findKV_cons, h, keysOf, ih]
    · simp [findKV_cons, h, keysOf, ih]
      tauto

theorem mem_keysOf_putKV (m : SMap) (k v k' : String) :
    k' ∈ keysOf (putKV m k v) ↔ k' ∈ keysOf m ∨ k' = k := by
  simp only [putKV, keysOf, List.map_append, List.mem_append, List.mem_map, List.mem_filter,
    List.mem_singleton]
  constructor
  · rintro (⟨p, ⟨hp, _⟩, rfl⟩ | ⟨p, hp, h⟩)
    · exact Or.inl ⟨p, hp, rfl⟩
    · subst hp
      exact Or.inr h.symm
  · rintro (⟨p, hp, rfl⟩ | rfl)
    · by_cases h : p.1 = k
      · exact Or.inr ⟨(k, v), rfl, h.symm⟩
      · exact Or.inl ⟨p, ⟨hp, by simpa using h⟩, rfl⟩
    · simp

theorem findKV_filter_self (m : SMap) (k : String) :
    findKV (m.filter (fun p => p.1 ≠ k)) k = none := by
  rw [findKV_eq_none]
  simp [keysOf, List.mem_filter]

theorem findKV_filter_ne (m : SMap) (k k' : String) (h : k' ≠ k) :
    findKV (m.filter (fun p => p.1 ≠ k)) k' = findKV m k' := by
  induction m with
  | nil => rfl
  | cons p m ih =>
    rw [List.filter_cons]
    by_cases hp : p.1 = k
    · rw [if_neg (by simp [hp])]
      rw [ih, findKV_cons, if_neg (by rw [hp]; exact fun hk => h hk.symm)]
    · rw [if_pos (by simpa using hp), findKV_cons, findKV_cons, ih]

theorem findKV_putKV_self (m : SMap) (k v : String) :
    findKV (putKV m k v) k = some v := by
  rw [putKV, findKV_append, findKV_filter_self]
  simp [findKV]

theorem findKV_putKV_ne (m : SMap) (k v k' : String) (h : k' ≠ k) :
    findKV (putKV m k v) k' = findKV m k' := by
  rw [putKV, findKV_append]
  rw [findKV_filter_ne m k k' h]
  cases hf : findKV m k' with
  | none => simp [findKV, show ¬(k = k') from fun hk => h hk.symm]
  | some v0 => rfl

theorem keysOf_filter_sublist (m : SMap) (k : String) :
    (keysOf (m.filter (fun p => p.1 ≠ k))).Sublist (keysOf m) := by
  have h := (List.filter_sublist (p := fun p : String × String => decide (p.1 ≠ k)) m).map
    (fun p : String × String => p.1)
  simpa [keysOf] using h

theorem keysOf_putKV_nodup (m : SMap) (k v : String) (h : (keysOf m).Nodup) :
    (keysOf (putKV m k v)).Nodup := by
  have hsub := keysOf_filter_sublist m k
  rw [putKV, keysOf, List.map_append]
  rw [List.nodup_append]
  refine ⟨hsub.nodup h, by simp, ?_⟩
  intro a ha
  simp only [keysOf, List.mem_map, List.mem_filter, decide_eq_true_eq] at ha
  obtain ⟨p, ⟨_, hne⟩, rfl⟩ := ha
  simp [hne]

theorem mem_keysOf_putAll (m kvs : SMap) (k : String) :
    k ∈ keysOf (putAll m kvs) ↔ k ∈ keysOf m ∨ k ∈ keysOf kvs := by
  induction kvs generalizing m with
  | nil => simp [putAll_nil, keysOf]
  | cons p kvs ih =>
    rw [show (p :: kvs : SMap) = ((p.1, p.2) :: kvs) from rfl, putAll_cons, ih,
      mem_keysOf_putKV]
    simp [keysOf]
    tauto

theorem keysOf_putAll_nodup (m kvs : SMap) (h : (keysOf m).Nodup) :
    (keysOf (putAll m kvs)).Nodup := by
  induction kvs generalizing m with
  | nil => exact h
  | cons p kvs ih =>
    rw [show (p :: kvs : SMap) = ((p.1, p.2) :: kvs) from rfl, putAll_cons]
    exact ih _ (keysOf_putKV_nodup _ _ _ h)

theorem putKV_of_not_mem (m : SMap) (k v : String) (h : k ∉ keysOf m) :
    putKV m k v = m ++ [(k, v)] := by
  rw [putKV]
  congr 1
  rw [List.filter_eq_self]
  intro p hp
  simp only [decide_eq_true_eq]
  intro hk
  exact h (by rw [← hk]; exact List.mem_map_of_mem (fun q => q.1) hp)

theorem keysOf_cons (p : String × String) (m : SMap) :
    keysOf (p :: m) = p.1 :: keysOf m := rfl

theorem putAll_eq_append (m kvs : SMap) (hk : (keysOf kvs).Nodup)
    (hd : ∀ k ∈ keysOf kvs, k ∉ keysOf m) : putAll m kvs = m ++ kvs := by
  induction kvs generalizing m with
  | nil => simp [putAll_nil]
  | cons p kvs ih =>
    rw [keysOf_cons, List.nodup_cons] at hk
    rw [keysOf_cons] at hd
    have hd2 : ∀ k ∈ keysOf kvs, k ∉ keysOf (m ++ [(p.1, p.2)]) := by
      intro k hkk
      rw [keysOf, List.map_append, List.mem_append]
      rintro (hm | hs)
      · exact hd k (List.mem_cons_of_mem _ hkk) hm
      · simp at hs
        exact hk.1 (hs ▸ hkk)
    rw [show (p :: kvs : SMap) = ((p.1, p.2) :: kvs) from rfl, putAll_cons,
      putKV_of_not_mem m p.1 p.2 (hd p.1 (List.mem_cons_self _ _)),
      ih (m ++ [(p.1, p.2)]) hk.2 hd2]
    simp

theorem putAll_nil_left (kvs : SMap) (hk : (keysOf kvs).Nodup) :
    putAll [] kvs = kvs := by
  rw [putAll_eq_append [] kvs hk (by simp [keysOf])]
  simp

mutual
theorem flatten_keys_nodup : ∀ (j : Json) (pfx : String), (keysOf (flatten j pfx)).Nodup
  | .obj fields, pfx => flattenFields_keys_nodup fields pfx
  | .arr _, _ => List.nodup_nil
  | .str _, _ => List.nodup_nil
  | .num _, _ => List.nodup_nil
  | .boolean _, _ => List.nodup_nil
  | .null, _ => List.nodup_nil

theorem flattenFields_keys_nodup : ∀ (fields : List (String × Json)) (pfx : String),
    (keysOf (flattenFields fields pfx)).Nodup
  | [], _ => List.nodup_nil
  | (key, value) :: _rest, pfx =>
    keysOf_putAll_nodup _ _ (flattenVal_keys_nodup value (newPfx pfx key))

theorem flattenVal_keys_nodup : ∀ (v : Json) (np : String), (keysOf (flattenVal v np)).Nodup
  | .obj f, np => flattenFields_keys_nodup f np
  | .arr [], _ => List.nodup_nil
  | .arr (x :: _), np => flatten_keys_nodup x np
  | .str _, _ => List.nodup_singleton _
  | .num _, _ => List.nodup_singleton _
  | .boolean _, _ => List.nodup_singleton _
  | .null, _ => List.nodup_singleton _
end

mutual
theorem mem_flatten_iff : ∀ (j : Json) (pfx k : String),
    k ∈ keysOf (flatten j pfx) ↔ keyOf j pfx k
  | .obj fields, pfx, k => mem_flattenFields_iff fields pfx k
  | .arr _, _, _ => by simp [flatten, keyOf, keysOf]
  | .str _, _, _ => by simp [flatten, keyOf, keysOf]
  | .num _, _, _ => by simp [flatten, keyOf, keysOf]
  | .boolean _, _, _ => by simp [flatten, keyOf, keysOf]
  | .null, _, _ => by simp [flatten, keyOf, keysOf]

theorem mem_flattenFields_iff : ∀ (fields : List (String × Json)) (pfx k : String),
    k ∈ keysOf (flattenFields fields pfx) ↔ keyOfFields fields pfx k
  | [], _, _ => by simp [flattenFields, keyOfFields, keysOf]
  | (key, value) :: rest, pfx, k =>
    Iff.trans (mem_keysOf_putAll _ _ k)
      (or_congr (mem_flattenVal_iff value (newPfx pfx key) k)
        (mem_flattenFields_iff rest pfx k))

theorem mem_flattenVal_iff : ∀ (v : Json) (np k : String),
    k ∈ keysOf (flattenVal v np) ↔ keyOfVal v np k
  | .obj f, np, k => mem_flattenFields_iff f np k
  | .arr [], _, _ => by simp [flattenVal, keyOfVal, keysOf]
  | .arr (x :: _), np, k => mem_flatten_iff x np k
  | .str _, _, _ => by simp [flattenVal, keyOfVal, keysOf]
  | .num _, _, _ => by simp [flattenVal, keyOfVal, keysOf]
  | .boolean _, _, _ => by simp [flattenVal, keyOfVal, keysOf]
  | .null, _, _ => by simp [flattenVal, keyOfVal, keysOf]
end

theorem flatten_non_obj (j : Json) (pfx : String) (h : ∀ fields, j ≠ Json.obj fields) :
    flatten j pfx = [] := by
  cases j with
  | obj fields => exact absurd rfl (h fields)
  | arr l => rfl
  | str s => rfl
  | num n => rfl
  | boolean b => rfl
  | null => rfl

theorem putAll_nil_left_flattenFields (fields : List (String × Json)) (pfx : String) :
    putAll [] (flattenFields fields pfx) = flattenFields fields pfx :=
  putAll_nil_left _ (flattenFields_keys_nodup fields pfx)

/-- C2 counterexample: for the field a bound to the array with the single
string element hello, flatten does not store hello under the key a; it
stores nothing at all, because recursing into a non-object first element
yields the empty map. -/
theorem c2_counterexample :
    findKV (flatten (Json.obj [("a", Json.arr [Json.str "hello"])]) "") "a" ≠ some "hello" ∧
    flatten (Json.obj [("a", Json.arr [Json.str "hello"])]) "" = [] := by
  decide

/-- C2 (amended): when flatten meets an object field whose value is a
non-empty array it takes only the first element and recurses the flattener
into it with the same new path, so elements past the first never matter;
a field whose value is an array with a scalar (in particular string) first
element contributes nothing, because recursing into a non-object yields
the empty map; fields whose value is an empty array contribute nothing. -/
theorem c2_array_fields (key : String) (x : Json) (es : List Json)
    (more : List (String × Json)) (pfx : String) :
    flattenFields ((key, Json.arr (x :: es)) :: more) pfx =
      putAll (flatten x (newPfx pfx key)) (flattenFields more pfx) ∧
    flattenFields ((key, Json.arr (x :: es)) :: more) pfx =
      flattenFields ((key, Json.arr [x]) :: more) pfx ∧
    flattenFields ((key, Json.arr []) :: more) pfx = flattenFields more pfx ∧
    ((∀ fields, x ≠ Json.obj fields) →
      flattenFields ((key, Json.arr (x :: es)) :: more) pfx = flattenFields more pfx) := by
  refine ⟨rfl, rfl, putAll_nil_left_flattenFields more pfx, ?_⟩
  intro h
  show putAll (flattenVal (Json.arr (x :: es)) (newPfx pfx key)) (flattenFields more pfx) = _
  rw [show flattenVal (Json.arr (x :: es)) (newPfx pfx key) =
    flatten x (newPfx pfx key) from rfl]
  rw [flatten_non_obj x _ h, putAll_nil_left_flattenFields more pfx]

/-- C2 witness: with the field a bound to the array of the string hi
followed by the number 7, the field contributes nothing, and all
hypotheses of the amended claim hold at this input. -/
theorem c2_array_fields_witness :
    flattenFields [("a", Json.arr [Json.str "hi", Json.num 7])] "" = [] :=
  ((c2_array_fields "a" (Json.str "hi") [Json.num 7] [] "").2.2.2
    (fun _fields h => Json.noConfusion h)).trans rfl

/-- C3: the end-to-end example.  The single cluster c1 with payload
ocp_version 4.14 and node_summary of ready 3 and total 3 produces the flat
record binding cluster_name, ocp_version, node_summary_ready and
node_summary_total and nothing else, the sorted header, and the expected
table whose second row lists the values in header order. -/
theorem c3_end_to_end :
    putKV (flatten (Json.obj [("ocp_version", Json.str "4.14"),
        ("node_summary", Json.obj [("ready", Json.num 3), ("total", Json.num 3)])]) "")
      "cluster_name" "c1" =
      [("ocp_version", "4.14"), ("node_summary_ready", "3"), ("node_summary_total", "3"),
        ("cluster_name", "c1")] ∧
    tableOf [("c1", Json.obj [("ocp_version", Json.str "4.14"),
        ("node_summary", Json.obj [("ready", Json.num 3), ("total", Json.num 3)])])] =
      [["cluster_name", "node_summary_ready", "node_summary_total", "ocp_version"],
        ["c1", "3", "3", "4.14"]] := by
  constructor
  · decide
  · simp +decide [tableOf, headerOf, flattenClusters, flatten, flattenFields, flattenVal,
      newPfx, putKV, putAll, keysOf, rowFor, findKV, List.insertionSort, List.orderedInsert,
      List.dedup]

/-- C8: flatten of any top-level value that is not an object is the empty
record, with no error possible (flatten is a total function); consequently
a field holding an array whose first element is a scalar contributes
nothing. -/
theorem c8_non_object_flatten :
    (∀ (j : Json) (pfx : String), (∀ fields, j ≠ Json.obj fields) → flatten j pfx = []) ∧
    (∀ (key : String) (x : Json) (es : List Json) (pfx : String),
      (∀ fields, x ≠ Json.obj fields) →
      flatten (Json.obj [(key, Json.arr (x :: es))]) pfx = []) := by
  refine ⟨flatten_non_obj, ?_⟩
  intro key x es pfx h
  show putAll (flatten x (newPfx pfx key)) (flattenFields [] pfx) = []
  rw [flatten_non_obj x _ h]
  rfl

/-- C8 witness: a string, an array and null each flatten to the empty
record, and an array field with a number first element contributes
nothing. -/
theorem c8_non_object_flatten_witness :
    flatten (Json.str "s") "p" = [] ∧ flatten (Json.null) "" = [] ∧
    flatten (Json.obj [("a", Json.arr [Json.num 7, Json.str "x"])]) "" = [] :=
  ⟨c8_non_object_flatten.1 (Json.str "s") "p" (fun _ h => Json.noConfusion h),
   c8_non_object_flatten.1 Json.null "" (fun _ h => Json.noConfusion h),
   c8_non_object_flatten.2 "a" (Json.num 7) [Json.str "x"] ""
     (fun _ h => Json.noConfusion h)⟩

/-- C9: the cluster identifier is assigned under cluster_name after
flattening, so it overwrites whatever the payload flattened to under that
key, leaves every other key untouched, and every record produced by the
cluster loop binds cluster_name to the map key of its cluster. -/
theorem c9_cluster_name_injected :
    (∀ (name : String) (j : Json),
      findKV (putKV (flatten j "") "cluster_name" name) "cluster_name" = some name) ∧
    (∀ (name : String) (j : Json) (k : String), k ≠ "cluster_name" →
      findKV (putKV (flatten j "") "cluster_name" name) k = findKV (flatten j "") k) ∧
    (∀ (cl : List (String × Json)) (r : SMap), r ∈ flattenClusters cl →
      ∃ c ∈ cl, r = putKV (flatten c.2 "") "cluster_name" c.1 ∧
        findKV r "cluster_name" = some c.1 ∧ "cluster_name" ∈ keysOf r) := by
  refine ⟨fun name j => findKV_putKV_self _ _ _,
    fun name j k hk => findKV_putKV_ne _ _ _ _ hk, ?_⟩
  intro cl r hr
  rw [flattenClusters, List.mem_map] at hr
  obtain ⟨c, hc, rfl⟩ := hr
  exact ⟨c, hc, rfl, findKV_putKV_self _ _ _,
    (mem_keysOf_putKV _ _ _ _).mpr (Or.inr rfl)⟩

/-- C9 witness: even when the payload itself flattens to an entry under
cluster_name, the injected cluster identifier wins, and the unrelated key
a keeps its flattened value. -/
theorem c9_cluster_name_injected_witness :
    findKV (putKV (flatten (Json.obj [("cluster_name", Json.str "evil"),
      ("a", Json.str "v")]) "") "cluster_name" "c1") "cluster_name" = some "c1" ∧
    findKV (putKV (flatten (Json.obj [("cluster_name", Json.str "evil"),
      ("a", Json.str "v")]) "") "cluster_name" "c1") "a" =
      findKV (flatten (Json.obj [("cluster_name", Json.str "evil"),
        ("a", Json.str "v")]) "") "a" :=
  ⟨c9_cluster_name_injected.1 "c1" _,
   c9_cluster_name_injected.2.1 "c1" _ "a" (by decide)⟩

/-- C10: a fetched payload whose clusters map is empty yields the table
with exactly one row, the empty header row with zero cells, and no data
rows. -/
theorem c10_empty_clusters (s : StatusResponse) (h : s.clusters = []) :
    tableOf s.clusters = [[]] := by
  rw [h]
  rfl

/-- C10 witness: the payload with status success and no clusters. -/
theorem c10_empty_clusters_witness :
    tableOf (StatusResponse.mk "success" []).clusters = [[]] :=
  c10_empty_clusters (StatusResponse.mk "success" []) rfl

theorem pollLoop_gets_range (get : Nat → GetOutcome) :
    ∀ (fuel i : Nat), ∃ n ≤ fuel, (pollLoop get i fuel).2 = List.range' i n := by
  intro fuel
  induction fuel with
  | zero => exact fun i => ⟨0, Nat.le_refl 0, rfl⟩
  | succ fuel ih =>
    intro i
    cases hg : get i with
    | transportErr => exact ⟨1, Nat.succ_le_succ (Nat.zero_le _), by simp [pollLoop, hg]⟩
    | decodeErr => exact ⟨1, Nat.succ_le_succ (Nat.zero_le _), by simp [pollLoop, hg]⟩
    | payload s =>
      by_cases hs : s.status = "success"
      · exact ⟨1, Nat.succ_le_succ (Nat.zero_le _), by simp [pollLoop, hg, hs]⟩
      · obtain ⟨n, hn, he⟩ := ih (i + 1)
        refine ⟨n + 1, Nat.succ_le_succ hn, ?_⟩
        simp only [pollLoop, hg, if_neg hs]
        rw [he]
        rfl

theorem pollLoop_first_success (get : Nat → GetOutcome) (s : StatusResponse) :
    ∀ (fuel i m : Nat), i ≤ m → m < i + fuel →
    (∀ j, i ≤ j → j < m → ∃ t, get j = .payload t ∧ t.status ≠ "success") →
    get m = .payload s → s.status = "success" →
    pollLoop get i fuel = (.ok s, List.range' i (m - i + 1)) := by
  intro fuel
  induction fuel with
  | zero => omega
  | succ fuel ih =>
    intro i m him hm hbefore hget hs
    rcases Nat.eq_or_lt_of_le him with rfl | hlt
    · simp [pollLoop, hget, hs, List.range']
    · obtain ⟨t, ht, hts⟩ := hbefore i (Nat.le_refl i) hlt
      have hrec := ih (i + 1) m hlt (by omega)
        (fun j hj₁ hj₂ => hbefore j (by omega) hj₂) hget hs
      simp only [pollLoop, ht, if_neg hts]
      rw [hrec]
      have : m - i + 1 = (m - (i + 1) + 1) + 1 := by omega
      rw [this]
      rfl

theorem pollLoop_timeout (get : Nat → GetOutcome) :
    ∀ (fuel i : Nat),
    (∀ j, i ≤ j → j < i + fuel → ∃ t, get j = .payload t ∧ t.status ≠ "success") →
    pollLoop get i fuel = (.error .timeout, List.range' i fuel) := by
  intro fuel
  induction fuel with
  | zero => intro i _; rfl
  | succ fuel ih =>
    intro i hall
    obtain ⟨t, ht, hts⟩ := hall i (Nat.le_refl i) (by omega)
    have hrec := ih (i + 1) (fun j hj₁ hj₂ => hall j (by omega) (by omega))
    simp only [pollLoop, ht, if_neg hts]
    rw [hrec]
    rfl

/-- C6: with the POST succeeding, the poller issues exactly one POST (and
exactly one even when the POST itself fails), performs at most 10 GETs and
performs them strictly sequentially at attempt indices 0, 1, 2 and so on;
if attempt m below 10 is the first whose decoded payload has status
success the poller returns that payload having performed exactly the GETs
0 through m and no more; and if all 10 attempts decode to payloads whose
status is not success, the poller fails with the timeout error after
exactly 10 GETs and performs no eleventh attempt. -/
theorem c6_poll_loop (get : Nat → GetOutcome) :
    (pollForStatus .ok get).2.1 = 1 ∧
    (pollForStatus .transportErr get).2.1 = 1 ∧
    (∃ n ≤ 10, (pollForStatus .ok get).2.2 = List.range n) ∧
    (∀ m s, m < 10 →
      (∀ j, j < m → ∃ t, get j = .payload t ∧ t.status ≠ "success") →
      get m = .payload s → s.status = "success" →
      (pollForStatus .ok get).1 = .ok s ∧
        (pollForStatus .ok get).2.2 = List.range (m + 1)) ∧
    ((∀ j, j < 10 → ∃ t, get j = .payload t ∧ t.status ≠ "success") →
      (pollForStatus .ok get).1 = .error .timeout ∧
        (pollForStatus .ok get).2.2 = List.range 10) := by
  refine ⟨rfl, rfl, ?_, ?_, ?_⟩
  · obtain ⟨n, hn, he⟩ := pollLoop_gets_range get 10 0
    exact ⟨n, hn, by rw [show (pollForStatus .ok get).2.2 = (pollLoop get 0 10).2 from rfl,
      he, List.range_eq_range']⟩
  · intro m s hm hbefore hget hs
    have h := pollLoop_first_success get s 10 0 m (Nat.zero_le m) (by omega)
      (fun j _ hj => hbefore j hj) hget hs
    constructor
    · show (pollLoop get 0 10).1 = .ok s
      rw [h]
    · show (pollLoop get 0 10).2 = List.range (m + 1)
      rw [h, List.range_eq_range']
      simp
  · intro hall
    have h := pollLoop_timeout get 10 0 (fun j _ hj => hall j (by omega))
    constructor
    · show (pollLoop get 0 10).1 = .error .timeout
      rw [h]
    · show (pollLoop get 0 10).2 = List.range 10
      rw [h, List.range_eq_range']

/-- C6 witness: a run whose first two polls see a pending payload and
whose third sees success returns the success payload after exactly the
GET attempts 0, 1 and 2, having issued exactly one POST. -/
theorem c6_poll_loop_witness :
    (pollForStatus .ok (fun i => if i < 2 then .payload ⟨"pending", []⟩
      else .payload ⟨"success", [("c", Json.null)]⟩)).1 =
      .ok ⟨"success", [("c", Json.null)]⟩ ∧
    (pollForStatus .ok (fun i => if i < 2 then .payload ⟨"pending", []⟩
      else .payload ⟨"success", [("c", Json.null)]⟩)).2.2 = [0, 1, 2] ∧
    (pollForStatus .ok (fun i => if i < 2 then .payload ⟨"pending", []⟩
      else .payload ⟨"success", [("c", Json.null)]⟩)).2.1 = 1 := by
  have h := c6_poll_loop (fun i => if i < 2 then .payload ⟨"pending", []⟩
    else .payload ⟨"success", [("c", Json.null)]⟩)
  have hm := h.2.2.2.1 2 ⟨"success", [("c", Json.null)]⟩ (by omega)
    (fun j hj => ⟨⟨"pending", []⟩, by rw [if_pos hj], by decide⟩)
    (by rw [if_neg (by omega)]) rfl
  exact ⟨hm.1, by rw [hm.2]; rfl, h.1⟩

/-- C7: the authenticator issues exactly one HTTP request on every path,
returns the decoded access token exactly on a transport-error-free
response with status code 200 and a decodable body, and fails otherwise:
with the transport error on a failed call, with the bad-status error on a
code other than 200 (without attempting to decode), and with the decode
error on an undecodable 200 body.  It never retries: the request count is
one in every case. -/
theorem c7_get_access_token (r : LoginOutcome) :
    (getAccessToken r).2 = 1 ∧
    (∀ tok, r = .response 200 (some tok) → (getAccessToken r).1 = .ok tok) ∧
    ((∃ t, (getAccessToken r).1 = .ok t) ↔ (∃ t, r = .response 200 (some t))) ∧
    (r = .transportErr → (getAccessToken r).1 = .error .transport) ∧
    (∀ code d, r = .response code d → code ≠ 200 →
      (getAccessToken r).1 = .error .badStatus) ∧
    (∀ code, r = .response code none → code = 200 →
      (getAccessToken r).1 = .error .decodeFailed) := by
  refine ⟨?_, ?_, ?_, ?_, ?_, ?_⟩
  · cases r with
    | transportErr => rfl
    | response code d =>
      by_cases h : code = 200
      · subst h
        cases d <;> rfl
      · simp [getAccessToken, h]
  · rintro tok rfl
    rfl
  · constructor
    · rintro ⟨t, ht⟩
      cases r with
      | transportErr => exact absurd ht (by simp [getAccessToken])
      | response code d =>
        by_cases h : code = 200
        · subst h
          cases d with
          | none => exact absurd ht (by simp [getAccessToken])
          | some tok =>
            refine ⟨tok, rfl⟩
        · exact absurd ht (by simp [getAccessToken, h])
    · rintro ⟨t, rfl⟩
      exact ⟨t, rfl⟩
  · rintro rfl
    rfl
  · rintro code d rfl h
    simp [getAccessToken, h]
  · rintro code rfl rfl
    rfl

/-- C7 witness: a 200 response decoding to the token tok succeeds with
that token in one request, and a 500 response fails with the bad-status
error. -/
theorem c7_get_access_token_witness :
    (getAccessToken (.response 200 (some "tok"))).1 = .ok "tok" ∧
    (getAccessToken (.response 200 (some "tok"))).2 = 1 ∧
    (getAccessToken (.response 500 none)).1 = .error .badStatus :=
  ⟨(c7_get_access_token (.response 200 (some "tok"))).2.1 "tok" rfl,
   (c7_get_access_token (.response 200 (some "tok"))).1,
   (c7_get_access_token (.response 500 none)).2.2.2.2.1 500 none rfl (by decide)⟩

theorem mem_headerOf (recs : List SMap) (k : String) :
    k ∈ headerOf recs ↔ ∃ r ∈ recs, k ∈ keysOf r := by
  rw [headerOf, (List.perm_insertionSort _ _).mem_iff, List.mem_dedup, List.mem_flatMap]

theorem headerOf_sorted (recs : List SMap) :
    List.Sorted (· ≤ ·) (headerOf recs) :=
  List.sorted_insertionSort _ _

theorem headerOf_nodup (recs : List SMap) : (headerOf recs).Nodup :=
  ((List.perm_insertionSort _ _).nodup_iff).mpr (List.nodup_dedup _)

theorem sorted_nodup_ext (l₁ l₂ : List String)
    (h₁ : List.Sorted (· ≤ ·) l₁) (h₂ : List.Sorted (· ≤ ·) l₂)
    (n₁ : l₁.Nodup) (n₂ : l₂.Nodup) (hm : ∀ k, k ∈ l₁ ↔ k ∈ l₂) : l₁ = l₂ :=
  List.eq_of_perm_of_sorted ((List.perm_ext_iff_of_nodup n₁ n₂).mpr hm) h₁ h₂

theorem mem_specHeaderOf (recs : List SMap) (k : String) :
    k ∈ specHeaderOf recs ↔ ∃ r ∈ recs, k ∈ keysOf r := by
  rw [specHeaderOf, Finset.mem_sort]
  induction recs with
  | nil => simp
  | cons r recs ih => simp [ih]

theorem headerOf_eq_specHeaderOf (recs : List SMap) :
    headerOf recs = specHeaderOf recs := by
  refine sorted_nodup_ext _ _ (headerOf_sorted recs) (Finset.sort_sorted _ _)
    (headerOf_nodup recs) (Finset.sort_nodup _ _) ?_
  intro k
  rw [mem_headerOf, mem_specHeaderOf]

/-- C5: every data row of the assembled table has exactly as many cells as
the header; cell j of a row is the value the record binds to header column
j, so cells follow the header column order; and a header key absent from a
record renders as the empty string in that position, never as a missing
cell. -/
theorem c5_rows_match_header (cl : List (String × Json)) :
    (∀ row ∈ (tableOf cl).drop 1, row.length = (headerOf (flattenClusters cl)).length) ∧
    (∀ r ∈ flattenClusters cl, ∀ j, j < (headerOf (flattenClusters cl)).length →
      (rowFor (headerOf (flattenClusters cl)) r).getD j "MISSING" =
        (findKV r ((headerOf (flattenClusters cl)).getD j "")).getD "") ∧
    (∀ r ∈ flattenClusters cl, ∀ j, j < (headerOf (flattenClusters cl)).length →
      (headerOf (flattenClusters cl)).getD j "" ∉ keysOf r →
      (rowFor (headerOf (flattenClusters cl)) r).getD j "MISSING" = "") := by
  have hcell : ∀ (r : SMap) (j : Nat), j < (headerOf (flattenClusters cl)).length →
      (rowFor (headerOf (flattenClusters cl)) r).getD j "MISSING" =
        (findKV r ((headerOf (flattenClusters cl)).getD j "")).getD "" := by
    intro r j hj
    have hj2 : j < (rowFor (headerOf (flattenClusters cl)) r).length := by
      simp only [rowFor, List.length_map]
      exact hj
    rw [List.getD_eq_getElem _ _ hj2, List.getD_eq_getElem _ _ hj]
    simp only [rowFor, List.getElem_map]
  refine ⟨?_, fun r _ j hj => hcell r j hj, ?_⟩
  · intro row hrow
    rw [show (tableOf cl).drop 1 =
      (flattenClusters cl).map (rowFor (headerOf (flattenClusters cl))) from rfl] at hrow
    rw [List.mem_map] at hrow
    obtain ⟨r, _, rfl⟩ := hrow
    simp only [rowFor, List.length_map]
  · intro r _ j hj habs
    rw [hcell r j hj, (findKV_eq_none r _).mpr habs]
    rfl

/-- C5 witness: with two clusters holding disjoint payload keys a and b,
the second data row has the header length three, and the key a, absent
from the record of cluster c2, renders as the empty string in column 0. -/
theorem c5_rows_match_header_witness :
    ((rowFor (headerOf (flattenClusters [("c1", Json.obj [("a", Json.str "x")]),
        ("c2", Json.obj [("b", Json.str "y")])]))
      (putKV (flatten (Json.obj [("b", Json.str "y")]) "") "cluster_name" "c2")).length =
      (headerOf (flattenClusters [("c1", Json.obj [("a", Json.str "x")]),
        ("c2", Json.obj [("b", Json.str "y")])])).length) ∧
    (rowFor (headerOf (flattenClusters [("c1", Json.obj [("a", Json.str "x")]),
        ("c2", Json.obj [("b", Json.str "y")])]))
      (putKV (flatten (Json.obj [("b", Json.str "y")]) "") "cluster_name" "c2")).getD 0
        "MISSING" = "" := by
  have h := c5_rows_match_header [("c1", Json.obj [("a", Json.str "x")]),
    ("c2", Json.obj [("b", Json.str "y")])]
  constructor
  · exact h.1 _ (by
      simp only [tableOf, List.drop_succ_cons, List.drop_zero, List.mem_map, flattenClusters]
      exact ⟨putKV (flatten (Json.obj [("b", Json.str "y")]) "") "cluster_name" "c2",
        by simp, rfl⟩)
  · refine h.2.2 _ (by simp [flattenClusters]) 0 ?_ ?_
    · simp +decide [headerOf, flattenClusters, flatten, flattenFields, flattenVal, newPfx,
        putKV, putAll, keysOf, List.insertionSort, List.orderedInsert, List.dedup]
    · simp +decide [headerOf, flattenClusters, flatten, flattenFields, flattenVal, newPfx,
        putKV, putAll, keysOf, List.insertionSort, List.orderedInsert, List.dedup]

theorem keyOfFields_iff_exists (l : List (String × Json)) (pfx k : String) :
    keyOfFields l pfx k ↔ ∃ p ∈ l, keyOfVal p.2 (newPfx pfx p.1) k := by
  induction l with
  | nil => simp [keyOfFields]
  | cons p rest ih =>
    rw [show (p :: rest) = ((p.1, p.2) :: rest) from rfl]
    rw [show keyOfFields ((p.1, p.2) :: rest) pfx k =
      (keyOfVal p.2 (newPfx pfx p.1) k ∨ keyOfFields rest pfx k) from rfl]
    rw [ih]
    simp

theorem keyOfFields_perm (l l' : List (String × Json)) (h : l.Perm l') (pfx k : String) :
    keyOfFields l pfx k ↔ keyOfFields l' pfx k := by
  rw [keyOfFields_iff_exists, keyOfFields_iff_exists]
  constructor
  · rintro ⟨p, hp, hk⟩
    exact ⟨p, h.mem_iff.mp hp, hk⟩
  · rintro ⟨p, hp, hk⟩
    exact ⟨p, h.mem_iff.mpr hp, hk⟩

mutual
theorem keyOf_equiv : ∀ {j₁ j₂ : Json}, JEquiv j₁ j₂ → ∀ (pfx k : String),
    keyOf j₁ pfx k ↔ keyOf j₂ pfx k
  | _, _, .str _, _, _ => Iff.rfl
  | _, _, .num _, _, _ => Iff.rfl
  | _, _, .boolean _, _, _ => Iff.rfl
  | _, _, .null, _, _ => Iff.rfl
  | _, _, .arr _, _, _ => Iff.rfl
  | _, _, .obj hf hp, pfx, k =>
    (keyOfFields_equiv hf pfx k).trans (keyOfFields_perm _ _ hp pfx k)

theorem keyOfFields_equiv : ∀ {l₁ l₂ : List (String × Json)}, JEquivFields l₁ l₂ →
    ∀ (pfx k : String), keyOfFields l₁ pfx k ↔ keyOfFields l₂ pfx k
  | _, _, .nil, _, _ => Iff.rfl
  | _, _, .cons key hv hrest, pfx, k =>
    or_congr (keyOfVal_equiv hv (newPfx pfx key) k) (keyOfFields_equiv hrest pfx k)

theorem keyOfVal_equiv : ∀ {v₁ v₂ : Json}, JEquiv v₁ v₂ → ∀ (np k : String),
    keyOfVal v₁ np k ↔ keyOfVal v₂ np k
  | _, _, .str _, _, _ => Iff.rfl
  | _, _, .num _, _, _ => Iff.rfl
  | _, _, .boolean _, _, _ => Iff.rfl
  | _, _, .null, _, _ => Iff.rfl
  | _, _, .arr .nil, _, _ => Iff.rfl
  | _, _, .arr (.cons hx _), np, k => keyOf_equiv hx np k
  | _, _, .obj hf hp, np, k =>
    (keyOfFields_equiv hf np k).trans (keyOfFields_perm _ _ hp np k)
end

theorem jequivFields_forall₂ : ∀ {l₁ l₂ : List (String × Json)}, JEquivFields l₁ l₂ →
    List.Forall₂ (fun p q => p.1 = q.1 ∧ JEquiv p.2 q.2) l₁ l₂
  | _, _, .nil => .nil
  | _, _, .cons _ hv hrest => .cons ⟨rfl, hv⟩ (jequivFields_forall₂ hrest)

theorem exists_equivFields {P : Json → Prop} (hP : ∀ {x y : Json}, JEquiv x y → (P x ↔ P y))
    {cl mid : List (String × Json)} (h : JEquivFields cl mid) :
    (∃ c ∈ cl, P c.2) ↔ (∃ c ∈ mid, P c.2) := by
  have h2 := jequivFields_forall₂ h
  clear h
  induction h2 with
  | nil => simp
  | cons hpq hrest ih =>
    simp only [List.mem_cons]
    constructor
    · rintro ⟨c, (rfl | hc), hk⟩
      · exact ⟨_, Or.inl rfl, (hP hpq.2).mp hk⟩
      · obtain ⟨c', hc', hk'⟩ := ih.mp ⟨c, hc, hk⟩
        exact ⟨c', Or.inr hc', hk'⟩
    · rintro ⟨c, (rfl | hc), hk⟩
      · exact ⟨_, Or.inl rfl, (hP hpq.2).mpr hk⟩
      · obtain ⟨c', hc', hk'⟩ := ih.mpr ⟨c, hc, hk⟩
        exact ⟨c', Or.inr hc', hk'⟩

theorem mem_headerOf_clusters (cl : List (String × Json)) (k : String) :
    k ∈ headerOf (flattenClusters cl) ↔
      ∃ c ∈ cl, (k = "cluster_name" ∨ keyOf c.2 "" k) := by
  rw [mem_headerOf]
  constructor
  · rintro ⟨r, hr, hk⟩
    rw [flattenClusters, List.mem_map] at hr
    obtain ⟨c, hc, rfl⟩ := hr
    rw [mem_keysOf_putKV] at hk
    rcases hk with hk | hk
    · exact ⟨c, hc, Or.inr ((mem_flatten_iff c.2 "" k).mp hk)⟩
    · exact ⟨c, hc, Or.inl hk⟩
  · rintro ⟨c, hc, hk⟩
    refine ⟨putKV (flatten c.2 "") "cluster_name" c.1, ?_, ?_⟩
    · rw [flattenClusters, List.mem_map]
      exact ⟨c, hc, rfl⟩
    · rw [mem_keysOf_putKV]
      rcases hk with hk | hk
      · exact Or.inr hk
      · exact Or.inl ((mem_flatten_iff c.2 "" k).mpr hk)

/-- C4: the assembled header is exactly the lexicographically sorted,
de-duplicated union of the keys of all flattened records including the
injected cluster_name key (stated both as equality with the header the
spec describes, built from the key-set union, and through sortedness,
freedom from duplicates and the membership characterisation in terms of
the reachable flatten keys), and two cluster maps that denote the same
decoded value up to Go map iteration order, at every nesting level,
always produce the identical header. -/
theorem c4_header_sorted_union (cl₁ cl₂ : List (String × Json))
    (h : ClustersEquiv cl₁ cl₂) :
    headerOf (flattenClusters cl₁) = specHeaderOf (flattenClusters cl₁) ∧
    List.Sorted (· ≤ ·) (headerOf (flattenClusters cl₁)) ∧
    (headerOf (flattenClusters cl₁)).Nodup ∧
    (∀ k, k ∈ headerOf (flattenClusters cl₁) ↔
      ∃ c ∈ cl₁, (k = "cluster_name" ∨ keyOf c.2 "" k)) ∧
    headerOf (flattenClusters cl₁) = headerOf (flattenClusters cl₂) := by
  obtain ⟨mid, hf, hp⟩ := h
  refine ⟨headerOf_eq_specHeaderOf _, headerOf_sorted _, headerOf_nodup _,
    mem_headerOf_clusters cl₁, ?_⟩
  refine sorted_nodup_ext _ _ (headerOf_sorted _) (headerOf_sorted _)
    (headerOf_nodup _) (headerOf_nodup _) ?_
  intro k
  rw [mem_headerOf_clusters cl₁ k, mem_headerOf_clusters cl₂ k]
  have hmid := exists_equivFields
    (P := fun v => k = "cluster_name" ∨ keyOf v "" k)
    (fun hxy => or_congr Iff.rfl (keyOf_equiv hxy "" k)) hf
  rw [hmid]
  constructor
  · rintro ⟨c, hc, hk⟩
    exact ⟨c, hp.mem_iff.mp hc, hk⟩
  · rintro ⟨c, hc, hk⟩
    exact ⟨c, hp.mem_iff.mpr hc, hk⟩

/-- C4 witness: the same single-cluster map written with its two payload
fields in the two possible iteration orders produces the identical sorted
header, which contains the injected cluster_name key. -/
theorem c4_header_sorted_union_witness :
    headerOf (flattenClusters [("c1", Json.obj [("b", Json.str "y"), ("a", Json.str "x")])]) =
      headerOf (flattenClusters [("c1", Json.obj [("a", Json.str "x"), ("b", Json.str "y")])]) ∧
    "cluster_name" ∈
      headerOf (flattenClusters [("c1", Json.obj [("b", Json.str "y"), ("a", Json.str "x")])]) := by
  have h := c4_header_sorted_union
    [("c1", Json.obj [("b", Json.str "y"), ("a", Json.str "x")])]
    [("c1", Json.obj [("a", Json.str "x"), ("b", Json.str "y")])]
    ⟨[("c1", Json.obj [("a", Json.str "x"), ("b", Json.str "y")])],
      .cons "c1" (.obj (.cons "b" (.str "y") (.cons "a" (.str "x") .nil))
        (List.Perm.swap _ _ _)) .nil,
      List.Perm.refl _⟩
  exact ⟨h.2.2.2.2, (h.2.2.2.1 "cluster_name").mpr
    ⟨("c1", Json.obj [("b", Json.str "y"), ("a", Json.str "x")]), by simp, Or.inl rfl⟩⟩

theorem splitChars_no_underscore : ∀ (l : List Char), '_' ∉ l → splitChars l = [l] := by
  intro l
  induction l with
  | nil => intro _; rfl
  | cons c cs ih =>
    intro h
    have hc : c ≠ '_' := fun hc => h (hc ▸ List.mem_cons_self c cs)
    have hcs : '_' ∉ cs := fun hm => h (List.mem_cons_of_mem c hm)
    rw [splitChars, if_neg hc, ih hcs]

theorem splitChars_append_underscore : ∀ (a rest : List Char), '_' ∉ a →
    splitChars (a ++ '_' :: rest) = a :: splitChars rest := by
  intro a
  induction a with
  | nil =>
    intro rest _
    show splitChars ('_' :: rest) = [] :: splitChars rest
    rw [splitChars, if_pos rfl]
  | cons c cs ih =>
    intro rest h
    have hc : c ≠ '_' := fun hc => h (hc ▸ List.mem_cons_self c cs)
    have hcs : '_' ∉ cs := fun hm => h (List.mem_cons_of_mem c hm)
    show splitChars (c :: (cs ++ '_' :: rest)) = (c :: cs) :: splitChars rest
    rw [splitChars, if_neg hc, ih rest hcs]

theorem string_mk_data (s : String) : String.mk s.data = s := rfl

theorem string_data_inj (s t : String) (h : s.data = t.data) : s = t := by
  cases s
  cases t
  cases h
  rfl

theorem data_append₂ (s t u : String) :
    (s ++ t ++ u).data = s.data ++ t.data ++ u.data := by
  rw [String.data_append, String.data_append]

theorem append_underscore_ne_empty (s t : String) : s ++ "_" ++ t ≠ "" := by
  intro h
  have h2 := congrArg String.data h
  rw [data_append₂] at h2
  simp at h2

theorem newPfx_ne_empty (pfx k : String) (h : k ≠ "") : newPfx pfx k ≠ "" := by
  rw [newPfx]
  by_cases hp : pfx = ""
  · rw [if_pos hp]
    exact h
  · rw [if_neg hp]
    exact append_underscore_ne_empty pfx k

theorem joinU_cons₂ (a b : String) (rest : List String) :
    joinU (a :: b :: rest) = a ++ "_" ++ joinU (b :: rest) := rfl

theorem splitU_joinU : ∀ (p : List String), p ≠ [] → (∀ c ∈ p, '_' ∉ c.data) →
    splitU (joinU p) = p
  | [], h, _ => absurd rfl h
  | [a], _, hg => by
    rw [show joinU [a] = a from rfl, splitU,
      splitChars_no_underscore a.data (hg a (List.mem_singleton.mpr rfl))]
    simp [string_mk_data]
  | a :: b :: rest, _, hg => by
    rw [joinU_cons₂, splitU]
    have hdata : (a ++ "_" ++ joinU (b :: rest)).data =
        a.data ++ '_' :: (joinU (b :: rest)).data := by
      rw [data_append₂]
      simp
    rw [hdata, splitChars_append_underscore a.data _ (hg a (List.mem_cons_self _ _))]
    rw [List.map_cons, string_mk_data]
    have ih := splitU_joinU (b :: rest) (by simp)
      (fun c hc => hg c (List.mem_cons_of_mem a hc))
    rw [splitU] at ih
    rw [ih]

theorem joinKey_cons (pfx a : String) (p : List String) :
    joinKey pfx (a :: p) = joinKey (newPfx pfx a) p := rfl

theorem joinKey_pos : ∀ (p : List String) (pfx : String), pfx ≠ "" → p ≠ [] →
    joinKey pfx p = pfx ++ "_" ++ joinU p
  | [], _, _, h => absurd rfl h
  | [a], pfx, hp, _ => by
    rw [joinKey_cons, show joinKey (newPfx pfx a) [] = newPfx pfx a from rfl,
      newPfx, if_neg hp]
    rfl
  | a :: b :: rest, pfx, hp, _ => by
    have hne : newPfx pfx a ≠ "" := by
      rw [newPfx, if_neg hp]
      exact append_underscore_ne_empty pfx a
    rw [joinKey_cons, joinKey_pos (b :: rest) (newPfx pfx a) hne (by simp), joinU_cons₂,
      show newPfx pfx a = pfx ++ "_" ++ a from by rw [newPfx, if_neg hp]]
    simp [String.append_assoc]

theorem joinKey_empty_eq_joinU : ∀ (p : List String), p ≠ [] → (∀ c ∈ p, c ≠ "") →
    joinKey "" p = joinU p
  | [], h, _ => absurd rfl h
  | a :: rest, _, hg => by
    rw [joinKey_cons, newPfx, if_pos rfl]
    cases rest with
    | nil => rfl
    | cons b rest2 =>
      rw [joinKey_pos (b :: rest2) a (hg a (List.mem_cons_self _ _)) (by simp), joinU_cons₂]

/-- A path is round-trip safe when it is non-empty and every component is
a round-trip safe key. -/
def goodPath (p : List String) : Prop :=
  p ≠ [] ∧ ∀ c ∈ p, goodKey c

theorem joinKey_inj (pfx : String) (p₁ p₂ : List String)
    (h₁ : goodPath p₁) (h₂ : goodPath p₂)
    (h : joinKey pfx p₁ = joinKey pfx p₂) : p₁ = p₂ := by
  have hju : joinU p₁ = joinU p₂ := by
    by_cases hp : pfx = ""
    · subst hp
      rw [joinKey_empty_eq_joinU p₁ h₁.1 (fun c hc => (h₁.2 c hc).1),
        joinKey_empty_eq_joinU p₂ h₂.1 (fun c hc => (h₂.2 c hc).1)] at h
      exact h
    · rw [joinKey_pos p₁ pfx hp h₁.1, joinKey_pos p₂ pfx hp h₂.1] at h
      have h2 := congrArg String.data h
      rw [data_append₂, data_append₂, List.append_assoc, List.append_assoc] at h2
      exact string_data_inj _ _ (List.append_cancel_left (List.append_cancel_left h2))
  calc p₁ = splitU (joinU p₁) :=
        (splitU_joinU p₁ h₁.1 (fun c hc => (h₁.2 c hc).2)).symm
    _ = splitU (joinU p₂) := by rw [hju]
    _ = p₂ := splitU_joinU p₂ h₂.1 (fun c hc => (h₂.2 c hc).2)

theorem leavesVal_head (v : Json) (key : String) :
    ∀ q ∈ leavesVal v key, ∃ p, q.1 = key :: p := by
  cases v with
  | obj f =>
    intro q hq
    rw [show leavesVal (Json.obj f) key =
      (leavesFields f).map (fun q => (key :: q.1, q.2)) from rfl, List.mem_map] at hq
    obtain ⟨q', _, rfl⟩ := hq
    exact ⟨q'.1, rfl⟩
  | arr l =>
    cases l with
    | nil => intro q hq; exact absurd hq (List.not_mem_nil q)
    | cons x xs =>
      intro q hq
      rw [show leavesVal (Json.arr (x :: xs)) key =
        (leaves x).map (fun q => (key :: q.1, q.2)) from rfl, List.mem_map] at hq
      obtain ⟨q', _, rfl⟩ := hq
      exact ⟨q'.1, rfl⟩
  | str s =>
    intro q hq
    rw [show leavesVal (Json.str s) key = [([key], s)] from rfl, List.mem_singleton] at hq
    exact ⟨[], by rw [hq]⟩
  | num n =>
    intro q hq
    rw [show leavesVal (Json.num n) key = [([key], toString n)] from rfl,
      List.mem_singleton] at hq
    exact ⟨[], by rw [hq]⟩
  | boolean b =>
    intro q hq
    rw [show leavesVal (Json.boolean b) key =
      [([key], if b then "true" else "false")] from rfl, List.mem_singleton] at hq
    exact ⟨[], by rw [hq]⟩
  | null =>
    intro q hq
    rw [show leavesVal Json.null key = [([key], "<nil>")] from rfl,
      List.mem_singleton] at hq
    exact ⟨[], by rw [hq]⟩

theorem leavesFields_head (fields : List (String × Json)) :
    ∀ q ∈ leavesFields fields, ∃ key ∈ fields.map (fun p => p.1), ∃ p, q.1 = key :: p := by
  induction fields with
  | nil => intro q hq; exact absurd hq (List.not_mem_nil q)
  | cons f rest ih =>
    intro q hq
    rw [show leavesFields (f :: rest) = leavesVal f.2 f.1 ++ leavesFields rest from by
      cases f; rfl, List.mem_append] at hq
    rcases hq with hq | hq
    · obtain ⟨p, hp⟩ := leavesVal_head f.2 f.1 q hq
      exact ⟨f.1, by simp, p, hp⟩
    · obtain ⟨key, hkey, p, hp⟩ := ih q hq
      exact ⟨key, List.mem_cons_of_mem _ hkey, p, hp⟩

mutual
theorem leaves_paths_good : ∀ (j : Json), Wf j → ∀ q ∈ leaves j, goodPath q.1
  | .obj fields, h, q, hq => leavesFields_paths_good fields h.2 q hq
  | .arr _, _, q, hq => absurd hq (List.not_mem_nil q)
  | .str _, _, q, hq => absurd hq (List.not_mem_nil q)
  | .num _, _, q, hq => absurd hq (List.not_mem_nil q)
  | .boolean _, _, q, hq => absurd hq (List.not_mem_nil q)
  | .null, _, q, hq => absurd hq (List.not_mem_nil q)

theorem leavesFields_paths_good : ∀ (fields : List (String × Json)), WfFields fields →
    ∀ q ∈ leavesFields fields, goodPath q.1
  | [], _, q, hq => absurd hq (List.not_mem_nil q)
  | (key, value) :: rest, h, q, hq => by
    rw [show leavesFields ((key, value) :: rest) =
      leavesVal value key ++ leavesFields rest from rfl, List.mem_append] at hq
    rcases hq with hq | hq
    · exact leavesVal_paths_good value key h.2.1 h.1 q hq
    · exact leavesFields_paths_good rest h.2.2 q hq

theorem leavesVal_paths_good : ∀ (v : Json) (key : String), Wf v → goodKey key →
    ∀ q ∈ leavesVal v key, goodPath q.1
  | .obj f, key, hv, hk, q, hq => by
    rw [show leavesVal (Json.obj f) key =
      (leavesFields f).map (fun q => (key :: q.1, q.2)) from rfl, List.mem_map] at hq
    obtain ⟨q', hq', rfl⟩ := hq
    have hg := leavesFields_paths_good f hv.2 q' hq'
    refine ⟨by simp, ?_⟩
    intro c hc
    rcases List.mem_cons.mp hc with rfl | hc
    · exact hk
    · exact hg.2 c hc
  | .arr [], _, _, _, q, hq => absurd hq (List.not_mem_nil q)
  | .arr (x :: xs), key, hv, hk, q, hq => by
    rw [show leavesVal (Json.arr (x :: xs)) key =
      (leaves x).map (fun q => (key :: q.1, q.2)) from rfl, List.mem_map] at hq
    obtain ⟨q', hq', rfl⟩ := hq
    have hg := leaves_paths_good x hv.1 q' hq'
    refine ⟨by simp, ?_⟩
    intro c hc
    rcases List.mem_cons.mp hc with rfl | hc
    · exact hk
    · exact hg.2 c hc
  | .str s, key, _, hk, q, hq => by
    rw [show leavesVal (Json.str s) key = [([key], s)] from rfl,
      List.mem_singleton] at hq
    subst hq
    exact ⟨by simp, by intro c hc; rw [List.mem_singleton.mp hc]; exact hk⟩
  | .num n, key, _, hk, q, hq => by
    rw [show leavesVal (Json.num n) key = [([key], toString n)] from rfl,
      List.mem_singleton] at hq
    subst hq
    exact ⟨by simp, by intro c hc; rw [List.mem_singleton.mp hc]; exact hk⟩
  | .boolean b, key, _, hk, q, hq => by
    rw [show leavesVal (Json.boolean b) key =
      [([key], if b then "true" else "false")] from rfl, List.mem_singleton] at hq
    subst hq
    exact ⟨by simp, by intro c hc; rw [List.mem_singleton.mp hc]; exact hk⟩
  | .null, key, _, hk, q, hq => by
    rw [show leavesVal Json.null key = [([key], "<nil>")] from rfl,
      List.mem_singleton] at hq
    subst hq
    exact ⟨by simp, by intro c hc; rw [List.mem_singleton.mp hc]; exact hk⟩
end

theorem cons_str_injective (key : String) :
    Function.Injective (fun p : List String => key :: p) := by
  intro a b h
  injection h

mutual
theorem leaves_nodup : ∀ (j : Json), Wf j → ((leaves j).map (fun q => q.1)).Nodup
  | .obj fields, h => leavesFields_nodup fields h.1 h.2
  | .arr _, _ => List.nodup_nil
  | .str _, _ => List.nodup_nil
  | .num _, _ => List.nodup_nil
  | .boolean _, _ => List.nodup_nil
  | .null, _ => List.nodup_nil

theorem leavesFields_nodup : ∀ (fields : List (String × Json)),
    (fields.map (fun p => p.1)).Nodup → WfFields fields →
    ((leavesFields fields).map (fun q => q.1)).Nodup
  | [], _, _ => List.nodup_nil
  | (key, value) :: rest, hn, hw => by
    rw [List.map_cons, List.nodup_cons] at hn
    rw [show leavesFields ((key, value) :: rest) =
      leavesVal value key ++ leavesFields rest from rfl, List.map_append, List.nodup_append]
    refine ⟨leavesVal_nodup value key hw.2.1, leavesFields_nodup rest hn.2 hw.2.2, ?_⟩
    intro a ha hb
    rw [List.mem_map] at ha hb
    obtain ⟨q, hq, rfl⟩ := ha
    obtain ⟨q', hq', hq'1⟩ := hb
    obtain ⟨p, hp⟩ := leavesVal_head value key q hq
    obtain ⟨key', hkey', p', hp'⟩ := leavesFields_head rest q' hq'
    rw [hp] at hq'1
    rw [hp'] at hq'1
    have : key' = key := ((List.cons.injEq _ _ _ _).mp hq'1.symm |>.1).symm
    exact hn.1 (this ▸ hkey')

theorem leavesVal_nodup : ∀ (v : Json) (key : String), Wf v →
    ((leavesVal v key).map (fun q => q.1)).Nodup
  | .obj f, key, h => by
    rw [show leavesVal (Json.obj f) key =
      (leavesFields f).map (fun q => (key :: q.1, q.2)) from rfl, List.map_map]
    rw [show ((fun q : List String × String => q.1) ∘
      (fun q : List String × String => (key :: q.1, q.2))) =
      ((fun p : List String => key :: p) ∘ (fun q : List String × String => q.1)) from rfl]
    rw [← List.map_map]
    exact (leavesFields_nodup f h.1 h.2).map (cons_str_injective key)
  | .arr [], _, _ => List.nodup_nil
  | .arr (x :: xs), key, h => by
    rw [show leavesVal (Json.arr (x :: xs)) key =
      (leaves x).map (fun q => (key :: q.1, q.2)) from rfl, List.map_map]
    rw [show ((fun q : List String × String => q.1) ∘
      (fun q : List String × String => (key :: q.1, q.2))) =
      ((fun p : List String => key :: p) ∘ (fun q : List String × String => q.1)) from rfl]
    rw [← List.map_map]
    exact (leaves_nodup x h.1).map (cons_str_injective key)
  | .str _, _, _ => List.nodup_singleton _
  | .num _, _, _ => List.nodup_singleton _
  | .boolean _, _, _ => List.nodup_singleton _
  | .null, _, _ => List.nodup_singleton _
end

mutual
theorem flatten_eq_leaves : ∀ (j : Json) (pfx : String), Wf j →
    flatten j pfx = (leaves j).map (fun q => (joinKey pfx q.1, q.2))
  | .obj fields, pfx, h => flattenFields_eq_leaves fields pfx h.1 h.2
  | .arr _, _, _ => rfl
  | .str _, _, _ => rfl
  | .num _, _, _ => rfl
  | .boolean _, _, _ => rfl
  | .null, _, _ => rfl

theorem flattenFields_eq_leaves : ∀ (fields : List (String × Json)) (pfx : String),
    (fields.map (fun p => p.1)).Nodup → WfFields fields →
    flattenFields fields pfx = (leavesFields fields).map (fun q => (joinKey pfx q.1, q.2))
  | [], _, _, _ => rfl
  | (key, value) :: rest, pfx, hn, hw => by
    rw [List.map_cons, List.nodup_cons] at hn
    have hA := flattenVal_eq_leaves value key pfx hw.2.1
    have hB := flattenFields_eq_leaves rest pfx hn.2 hw.2.2
    have hkeysB : keysOf ((leavesFields rest).map (fun q => (joinKey pfx q.1, q.2))) =
        (leavesFields rest).map (fun q => joinKey pfx q.1) := by
      rw [keysOf, List.map_map]
      rfl
    have hpathsB : ∀ q ∈ leavesFields rest, goodPath q.1 :=
      leavesFields_paths_good rest hw.2.2
    have hnodupB :
        (keysOf ((leavesFields rest).map (fun q => (joinKey pfx q.1, q.2)))).Nodup := by
      rw [hkeysB,
        show (leavesFields rest).map (fun q => joinKey pfx q.1) =
          ((leavesFields rest).map (fun q => q.1)).map (joinKey pfx) from by
            rw [List.map_map]
            rfl]
      refine List.Nodup.map_on ?_ (leavesFields_nodup rest hn.2 hw.2.2)
      intro x hx y hy hxy
      rw [List.mem_map] at hx hy
      obtain ⟨qx, hqx, rfl⟩ := hx
      obtain ⟨qy, hqy, rfl⟩ := hy
      rw [joinKey_inj pfx _ _ (hpathsB qx hqx) (hpathsB qy hqy) hxy]
    have hdisj : ∀ k ∈ keysOf ((leavesFields rest).map (fun q => (joinKey pfx q.1, q.2))),
        k ∉ keysOf ((leavesVal value key).map (fun q => (joinKey pfx q.1, q.2))) := by
      intro k hk hk2
      rw [hkeysB, List.mem_map] at hk
      rw [show keysOf ((leavesVal value key).map (fun q => (joinKey pfx q.1, q.2))) =
        (leavesVal value key).map (fun q => joinKey pfx q.1) from by
          rw [keysOf, List.map_map]
          rfl, List.mem_map] at hk2
      obtain ⟨qB, hqB, hkB⟩ := hk
      obtain ⟨qA, hqA, hkA⟩ := hk2
      obtain ⟨pA, hpA⟩ := leavesVal_head value key qA hqA
      obtain ⟨keyB, hkeyB, pB, hpB⟩ := leavesFields_head rest qB hqB
      have hgA : goodPath qA.1 := leavesVal_paths_good value key hw.2.1 hw.1 qA hqA
      have hgB : goodPath qB.1 := hpathsB qB hqB
      have heq : qA.1 = qB.1 := joinKey_inj pfx _ _ hgA hgB (by rw [hkA, hkB])
      rw [hpA, hpB] at heq
      have hk0 : key = keyB := ((List.cons.injEq _ _ _ _).mp heq).1
      exact hn.1 (hk0 ▸ hkeyB)
    show putAll (flattenVal value (newPfx pfx key)) (flattenFields rest pfx) = _
    rw [hA, hB, putAll_eq_append _ _ hnodupB hdisj,
      show leavesFields ((key, value) :: rest) =
        leavesVal value key ++ leavesFields rest from rfl, List.map_append]

theorem flattenVal_eq_leaves : ∀ (v : Json) (key pfx : String), Wf v →
    flattenVal v (newPfx pfx key) = (leavesVal v key).map (fun q => (joinKey pfx q.1, q.2))
  | .obj f, key, pfx, hv => by
    rw [show leavesVal (Json.obj f) key =
      (leavesFields f).map (fun q => (key :: q.1, q.2)) from rfl, List.map_map]
    exact flattenFields_eq_leaves f (newPfx pfx key) hv.1 hv.2
  | .arr [], _, _, _ => rfl
  | .arr (x :: xs), key, pfx, hv => by
    rw [show leavesVal (Json.arr (x :: xs)) key =
      (leaves x).map (fun q => (key :: q.1, q.2)) from rfl, List.map_map]
    exact flatten_eq_leaves x (newPfx pfx key) hv.1
  | .str _, _, _, _ => rfl
  | .num _, _, _, _ => rfl
  | .boolean _, _, _, _ => rfl
  | .null, _, _, _ => rfl
end

/-- C1 counterexample, taken from the end-to-end example of the spec
itself: the key ocp_version contains an underscore, so flattening the
object binding it and then re-nesting by splitting the flat key on the
underscore separator yields the leaf path ocp, version instead of the
original leaf path ocp_version: re-nesting does not reconstruct the
original leaf values. -/
theorem c1_counterexample :
    (flatten (Json.obj [("ocp_version", Json.str "4.14")]) "").map
      (fun q => (splitU q.1, q.2)) = [(["ocp", "version"], "4.14")] ∧
    leaves (Json.obj [("ocp_version", Json.str "4.14")]) = [(["ocp_version"], "4.14")] ∧
    (flatten (Json.obj [("ocp_version", Json.str "4.14")]) "").map
      (fun q => (splitU q.1, q.2)) ≠
      leaves (Json.obj [("ocp_version", Json.str "4.14")]) := by
  refine ⟨?_, rfl, ?_⟩
  · decide
  · decide

/-- C1 (amended): for every nested JSON object all of whose keys, at every
level including inside array elements, are non-empty, underscore-free and
pairwise distinct within each object, flattening and then re-nesting each
flat key by splitting it on the underscore separator reconstructs exactly
the leaf paths and rendered leaf values of the original; arrays contribute
only what flattening their first element contributes (an object first
element keeps its leaves, anything else in an array is lost), so the
restriction to objects is information-preserving while arrays stay lossy
beyond an object first element. -/
theorem c1_round_trip (j : Json) (h : Wf j) :
    (flatten j "").map (fun q => (splitU q.1, q.2)) = leaves j := by
  rw [flatten_eq_leaves j "" h, List.map_map]
  have hcongr : ∀ q ∈ leaves j,
      ((fun q : String × String => (splitU q.1, q.2)) ∘
        (fun q : List String × String => (joinKey "" q.1, q.2))) q = id q := by
    intro q hq
    have hg : goodPath q.1 := leaves_paths_good j h q hq
    show (splitU (joinKey "" q.1), q.2) = q
    rw [joinKey_empty_eq_joinU q.1 hg.1 (fun c hc => (hg.2 c hc).1),
      splitU_joinU q.1 hg.1 (fun c hc => (hg.2 c hc).2)]
  rw [List.map_congr_left hcongr, List.map_id]

/-- C1 witness: a two-level object with underscore-free keys a, b and c
satisfies the well-formedness hypothesis, and flattening then re-nesting
reconstructs its leaves exactly. -/
theorem c1_round_trip_witness :
    Wf (Json.obj [("a", Json.obj [("b", Json.num 3)]), ("c", Json.str "x")]) ∧
    (flatten (Json.obj [("a", Json.obj [("b", Json.num 3)]), ("c", Json.str "x")]) "").map
      (fun q => (splitU q.1, q.2)) =
      leaves (Json.obj [("a", Json.obj [("b", Json.num 3)]), ("c", Json.str "x")]) := by
  have hw : Wf (Json.obj [("a", Json.obj [("b", Json.num 3)]), ("c", Json.str "x")]) := by
    simp +decide [Wf, WfFields, WfList, goodKey]
  exact ⟨hw, c1_round_trip _ hw⟩
